import Mathlib

/-!
Verification of the core decode / analyze pipeline of the spectr spectrum
analyzer: a shallow embedding of its container frame locator, raw PCM
materializer, windowing and recursive radix-2 FFT engine, together with
theorems settling the specified properties of these components.

Embedding conventions:
  * size_t / uint32_t / uint64_t values are Nat; where C wraparound can
    occur it is modeled explicitly, otherwise a comment argues exactness.
  * int32_t values are Int (with explicit two complement reinterpretation
    where the C mixes signed and unsigned operations).
  * double values are ideal reals; s_complex_t is the Mathlib complex type.
  * fallible functions return Except Int carrying the negated errno.
  * buffers read through pointers become List with an explicit default on
    out of range reads; result buffers written in place become total
    functions Nat to value, updated pointwise.
-/

namespace Spectr

/-- Errno value EINVAL (invalid input); C functions return its negation. -/
def EINVAL : Int := 22

/-- Errno value 5 (I/O error); C functions return its negation. -/
def eioErrno : Int := 5

/-- Embedding of s_from_synchsafe_int32 (src/src/util/bitwise.c and the
identical copy in src/src/spectr/util/bitwise.c): reassembles four 7 bit
groups MSB first. The four uint8_t reads are modeled with List.getD (all
callers stay in bounds); every intermediate value is below 2^28, so the
uint32_t arithmetic never wraps and plain Nat arithmetic is exact. -/
def s_from_synchsafe_int32 (buf : List Nat) (o : Nat) : Nat :=
  (((buf.getD (o + 0) 0) &&& 0x7F) <<< 21) |||
    (((buf.getD (o + 1) 0) &&& 0x7F) <<< 14) |||
    (((buf.getD (o + 2) 0) &&& 0x7F) <<< 7) |||
    ((buf.getD (o + 3) 0) &&& 0x7F)

/-- Embedding of s_rmo_off (src/src/spectr/util/bitwise.c): turns off the
rightmost one bit of a uint64_t. For v = 0 the C wraps v - 1 to 2^64 - 1 and
returns 0 AND (2^64 - 1) = 0; Nat truncated subtraction gives 0 AND 0 = 0,
so the embedding agrees on every input below 2^64. -/
def s_rmo_off (v : Nat) : Nat := v &&& (v - 1)

/-- Embedding of s_is_pow_2 (src/src/spectr/util/bitwise.c): v is nonzero
and removing its rightmost one bit leaves zero. -/
def s_is_pow_2 (v : Nat) : Bool := v != 0 && s_rmo_off v == 0

/-- Embedding of s_flp2 (src/src/spectr/util/bitwise.c): largest power of
two at most v, by propagating the leading one bit rightwards. All operations
act on uint64_t; for v below 2^64 no OR of right shifts can reach 2^64 and
the final subtraction cannot underflow, so Nat arithmetic is exact. -/
def s_flp2 (v : Nat) : Nat :=
  let v1 := v ||| (v >>> 1)
  let v2 := v1 ||| (v1 >>> 2)
  let v3 := v2 ||| (v2 >>> 4)
  let v4 := v3 ||| (v3 >>> 8)
  let v5 := v4 ||| (v4 >>> 16)
  let v6 := v5 ||| (v5 >>> 32)
  v6 - (v6 >>> 1)

/-- The value of the local variable v in s_flp2 after the six OR assignments
and before the final subtraction (a transparent restatement of the chain of
lets in s_flp2, named so that it can be reasoned about). -/
def s_flp2_smeared (v : Nat) : Nat :=
  let v1 := v ||| (v >>> 1)
  let v2 := v1 ||| (v1 >>> 2)
  let v3 := v2 ||| (v2 >>> 4)
  let v4 := v3 ||| (v3 >>> 8)
  let v5 := v4 ||| (v4 >>> 16)
  v5 ||| (v5 >>> 32)

/-- Embedding of s_get_window_size (src/src/util/math.c): the STFT window
size for a spectrogram w pixels wide over s samples. -/
def s_get_window_size (w s : Nat) : Except Int Nat :=
  if s < w then Except.error (-EINVAL) else Except.ok (s_flp2 (s / w))

/-- The file type enumeration s_ftype_t (src/src/types.h). -/
inductive s_ftype where
  | FTYPE_MP3
  | FTYPE_FLAC
  | FTYPE_OGG
  | FTYPE_AAC
  | FTYPE_INVALID
  deriving DecidableEq

/-- Audio stream properties, s_audio_stat_t (src/src/types.h). -/
structure s_audio_stat where
  type : s_ftype
  bit_depth : Nat
  sample_rate : Nat
  deriving DecidableEq

/-- One stereo PCM frame, s_stereo_sample_t (src/src/types.h); the int32_t
channels are modeled as Int carrying their two complement value. -/
structure s_stereo_sample where
  l : Int
  r : Int
  deriving DecidableEq

/-- Decoded raw audio, s_raw_audio_t (src/src/types.h); samples_length is
the length of the samples list. -/
structure s_raw_audio where
  stat : s_audio_stat
  samples : List s_stereo_sample
  deriving DecidableEq

/-- Read of raw.samples[i]. The C indexes a heap buffer directly; the
embedding returns the zero sample on the out of range branch. For the STFT
access pattern with zero overlap that branch is unreachable (claim C10). -/
def s_raw_audio.sampleAt (raw : s_raw_audio) (i : Nat) : s_stereo_sample :=
  if h : i < raw.samples.length then raw.samples.get ⟨i, h⟩ else ⟨0, 0⟩

/-- Embedding of s_mono_sample (src/src/util/math.c): the int64_t sum of two
int32_t channels cannot overflow, the arithmetic right shift by one is floor
division by two, and the result fits int32_t again, so the final cast is
exact. -/
def s_mono_sample (s : s_stereo_sample) : Int := Int.fdiv (s.l + s.r) 2

/-- Embedding of s_is_mp3_frame_header (src/src/decoding/quirks/mp3.c):
sync byte 0xFF followed by 0xFB or 0xFA. Reads beyond the mapped file
(possible in C when a corrupt tag yields a huge candidate offset) are
modeled as the value 0 and therefore never match the pattern. -/
def s_is_mp3_frame_header (buf : List Nat) (off : Nat) : Bool :=
  buf.getD off 0 == 0xFF &&
    (buf.getD (off + 1) 0 == 0xFB || buf.getD (off + 1) 0 == 0xFA)

/-- Embedding of s_get_mp3_frame_header_offset (src/src/decoding/quirks/
mp3.c), acting on the mmapped file contents (file shorter than 10 bytes is
rejected with the negated errno value 5 before the map). The ID3v2 detection condition is
transcribed exactly as the C source writes it: all three conjuncts compare
file[0] (against 0x49, 0x44 and 0x33). The fallback scan looks for the
first sync pattern at offsets below length - 1 and leaves the candidate
offset unchanged when it finds none. -/
def s_get_mp3_frame_header_offset (file : List Nat) : Except Int Nat :=
  if file.length < 10 then Except.error (-eioErrno)
  else
    let off0 : Nat :=
      if file.getD 0 0 == 0x49 && file.getD 0 0 == 0x44 && file.getD 0 0 == 0x33 then
        let base := s_from_synchsafe_int32 file 6 + 10
        if file.getD 5 0 &&& 0x10 ≠ 0 then base + 10 else base
      else 0
    let off1 : Nat :=
      if s_is_mp3_frame_header file off0 then off0
      else
        match (List.range (file.length - 1)).find? (fun i => s_is_mp3_frame_header file i) with
        | some i => i
        | none => off0
    if s_is_mp3_frame_header file off1 then Except.ok off1
    else Except.error (-EINVAL)

/-- A PCM byte (0 .. 255) read through const char and cast to uint32_t, as
in s_process_next_sample (src/src/decoding/raw.c): char is signed on the
build target, so bytes at or above 0x80 are sign extended to 32 bits. -/
def byte_as_uint32 (b : Nat) : Nat := if b < 128 then b else 0xFFFFFF00 + b

/-- Reinterpret a uint32_t bit pattern as an int32_t value. -/
def toInt32 (v : Nat) : Int := if v < 2 ^ 31 then (v : Int) else (v : Int) - 2 ^ 32

/-- The per channel byte loop of s_process_next_sample: k iterations of
acc = (acc shifted left 8) OR (uint32_t) d[doff + o] into an int32_t
accumulator, whose bit pattern is tracked as a Nat below 2^32 (the left
shift of a negative int32_t behaves as multiplication modulo 2^32 on the
two complement pattern on the build target). -/
def s_read_channel (d : List Nat) (doff k : Nat) : Nat :=
  (List.range k).foldl
    (fun acc o => ((acc * 256) % 2 ^ 32) ||| byte_as_uint32 (d.getD (doff + o) 0)) 0

/-- Embedding of s_process_next_sample (src/src/decoding/raw.c). State: the
sample array (total function), the sample index soff, the byte offset doff.
Returns (continue flag, array, soff, doff). The C first clears both channels
of sample soff, then stops - without reading and without advancing soff -
if the next frame would reach or pass the end of the buffer (the comparison
is doff + bits / 4 at least bytes, so a frame ending exactly at the buffer
end is also skipped); otherwise it reads bits / 8 bytes per channel, MSB
first, left channel then right channel, and advances both offsets. -/
def s_process_next_sample (s : Nat → s_stereo_sample) (soff : Nat) (d : List Nat)
    (doff bytes bits : Nat) : Bool × (Nat → s_stereo_sample) × Nat × Nat :=
  let s0 := Function.update s soff ⟨0, 0⟩
  if doff + (bits >>> 2) ≥ bytes then
    (false, s0, soff, doff)
  else
    let left := toInt32 (s_read_channel d doff (bits >>> 3))
    let right := toInt32 (s_read_channel d (doff + (bits >>> 3)) (bits >>> 3))
    (true, Function.update s0 soff ⟨left, right⟩, soff + 1, doff + (bits >>> 3) + (bits >>> 3))

/-- The while loop of s_decode_raw_audio, with explicit fuel; the C runs
s_process_next_sample until it returns 0. Fuel exhaustion returns none and
models a nonterminating C loop (possible only when bits / 8 = 0, where the
loop stops advancing doff). -/
def s_decode_loop (d : List Nat) (bytes bits : Nat) :
    Nat → (Nat → s_stereo_sample) → Nat → Nat → Option ((Nat → s_stereo_sample) × Nat)
  | 0, _, _, _ => none
  | fuel + 1, s, soff, doff =>
      match s_process_next_sample s soff d doff bytes bits with
      | (false, s1, soff1, _) => some (s1, soff1)
      | (true, s1, soff1, doff1) => s_decode_loop d bytes bits fuel s1 soff1 doff1

/-- Embedding of the PCM processing part of s_decode_raw_audio
(src/src/decoding/raw.c): d is the byte buffer obtained from the external
decoder (s_decode) and bits the bit depth reported by s_audio_stat (16 for
MP3). The C computes samples_length = bytes / (bit_depth / 4) after checking
divisibility, runs the loop from soff = doff = 0 over a malloc allocated
buffer (indeterminate contents, modeled as zero samples; every entry of the
returned prefix is written by the loop before the array is read), and fails
with -EINVAL unless exactly samples_length - 1 samples were fully read. The
fuel bytes + 1 suffices for every terminating C execution, since each
continuing iteration advances doff by 2 * (bits / 8) and at most bytes
iterations can continue when bits / 8 is positive; the none branch is mapped
to the marker error -1, unreachable when bits is a positive multiple of 8.
A modulo or division by bits / 4 = 0 is undefined behavior in C; Lean total
operations are used (x % 0 = x, x / 0 = 0), reachable only for bits < 4. -/
def s_decode_raw_audio (d : List Nat) (bits : Nat) : Except Int (List s_stereo_sample) :=
  let bytes := d.length
  if bytes % (bits >>> 2) ≠ 0 then Except.error (-EINVAL)
  else
    let samples_length := bytes / (bits >>> 2)
    match s_decode_loop d bytes bits (bytes + 1) (fun _ => ⟨0, 0⟩) 0 0 with
    | none => Except.error (-1)
    | some (s1, soff) =>
        if soff + 1 ≠ samples_length then Except.error (-EINVAL)
        else Except.ok ((List.range samples_length).map s1)

/-- The net effect of one continuing s_process_next_sample call at byte
offset doff with k = bits / 8 bytes per channel: left channel from bytes
doff .. doff + k - 1, right channel from the following k bytes. -/
def s_frame_sample (d : List Nat) (doff k : Nat) : s_stereo_sample :=
  ⟨toInt32 (s_read_channel d doff k), toInt32 (s_read_channel d (doff + k) k)⟩

/-- Embedding of s_cadd (src/src/util/complex.c): componentwise addition. -/
noncomputable def s_cadd (a b : ℂ) : ℂ := ⟨a.re + b.re, a.im + b.im⟩

/-- Embedding of s_cmul (src/src/util/complex.c): the product formula
(m x - n y) + (n x + m y) i. -/
noncomputable def s_cmul (a b : ℂ) : ℂ :=
  ⟨a.re * b.re - a.im * b.im, a.im * b.re + a.re * b.im⟩

/-- Embedding of s_cexp (src/src/util/complex.c): cos x + (sin x) i. -/
noncomputable def s_cexp (x : ℝ) : ℂ := ⟨Real.cos x, Real.sin x⟩

/-- Embedding of s_hann_function (src/src/transform/fourier.c):
0.5 * (1 - cos (2 pi n / (N - 1))). The C parameter n is int32_t; every call
site passes o - orgO with orgO at most o and o - orgO below orgN (far below
2^31), so the size_t subtraction and the int32_t conversion are exact and n
is modeled as Int. -/
noncomputable def s_hann_function (n : Int) (N : Nat) : ℝ :=
  0.5 * (1 - Real.cos (2 * Real.pi * (n : ℝ) / ((N : ℝ) - 1)))

/-- A DFT result, s_dft_t (src/src/types.h): the length together with the
value buffer, modeled as a total function from index to value (indices at or
beyond length keep their initialization, matching the zero fill done by
s_init_dft_result). -/
structure s_dft where
  length : Nat
  dft : Nat → ℂ

/-- The combine loop of s_fft_r (src/src/transform/fourier.c, the loop for
idx below bign / 2 at the end of the function): iteration idx writes the
lower half value even + W_lower * odd at array index s * idx + o - dfto and
the upper half value even + W_upper * odd at s * (idx + half) + o - dfto,
where even and odd come from the snapshot dftprime taken before the loop.
The first argument of the recursion is the number of loop iterations still
to run counted from the start, so s_fft_combine dftprime dfto s o bign n d
performs iterations idx = 0 .. n - 1 on the array d. -/
noncomputable def s_fft_combine (dftprime : Nat → ℂ) (dfto s o bign : Nat) :
    Nat → (Nat → ℂ) → (Nat → ℂ)
  | 0, dft => dft
  | n + 1, dft =>
      let prev := s_fft_combine dftprime dfto s o bign n dft
      let half := bign / 2
      let bigw : ℝ := -2 * Real.pi / (bign : ℝ)
      let bigwl := s_cexp (bigw * (n : ℝ))
      let bigwu := s_cexp (bigw * ((n + half : Nat) : ℝ))
      let even := dftprime (2 * n)
      let odd := dftprime (2 * n + 1)
      Function.update
        (Function.update prev (s * n + o - dfto) (s_cadd even (s_cmul bigwl odd)))
        (s * (n + half) + o - dfto) (s_cadd even (s_cmul bigwu odd))

/-- Embedding of s_fft_r (src/src/transform/fourier.c). The result buffer
dft is written in place at indices s * k + o - dfto; the base case writes
the (optionally windowed) mono downmixed sample with zero imaginary part,
the recursive case transforms the even (stride 2s, offset o) and odd
(stride 2s, offset o + s) subsequences and then runs the combine loop on the
snapshot dftprime of the bign values just produced. The C recursion never
terminates for bign = 0 (it keeps recursing on 0 / 2 = 0); that argument is
unreachable from s_fft_part, which only passes powers of two, and the
embedding returns the buffer unchanged there. -/
noncomputable def s_fft_r (dft : Nat → ℂ) (dfto : Nat) (raw : s_raw_audio)
    (s o bign : Nat) (wfn : Option (Int → Nat → ℝ)) (orgO orgN : Nat) : Nat → ℂ :=
  if h1 : bign = 1 then
    let base : ℝ := ((s_mono_sample (raw.sampleAt o) : ℤ) : ℝ)
    let value : ℝ :=
      match wfn with
      | none => base
      | some w => base * w ((o : Int) - (orgO : Int)) orgN
    Function.update dft (o - dfto) ⟨value, 0⟩
  else if h0 : bign = 0 then
    dft
  else
    let dft1 := s_fft_r dft dfto raw (2 * s) o (bign / 2) wfn orgO orgN
    let dft2 := s_fft_r dft1 dfto raw (2 * s) (o + s) (bign / 2) wfn orgO orgN
    let dftprime : Nat → ℂ := fun idx => dft2 (s * idx + o - dfto)
    s_fft_combine dftprime dfto s o bign (bign / 2) dft2
  termination_by bign
  decreasing_by all_goals omega

/-- Embedding of s_fft_part (src/src/transform/fourier.c): rejects a length
that is not a power of two with -EINVAL, zero initializes a result of length
l (s_init_dft and s_init_dft_result) and runs s_fft_r with stride 1, offset
o and dfto = orgO = o, orgN = l. Allocation failure (-ENOMEM) is not
modeled. -/
noncomputable def s_fft_part (raw : s_raw_audio) (o l : Nat)
    (wfn : Option (Int → Nat → ℝ)) : Except Int s_dft :=
  if s_is_pow_2 l then
    Except.ok ⟨l, s_fft_r (fun _ => 0) o raw 1 o l wfn o l⟩
  else
    Except.error (-EINVAL)

/-- Embedding of s_fft (src/src/transform/fourier.c): s_fft_part over the
whole sample list with no window function. -/
noncomputable def s_fft (raw : s_raw_audio) : Except Int s_dft :=
  s_fft_part raw 0 raw.samples.length none

/-- An STFT result, s_stft_t (src/src/types.h). -/
structure s_stft_t where
  raw_length : Nat
  raw_stat : s_audio_stat
  window : Nat
  length : Nat
  dfts : List s_dft

/-- Embedding of s_stft together with s_init_stft_result
(src/src/transform/fourier.c). A window size that is not a power of two is
rejected with -EINVAL; otherwise the frame count is
samples_length / (w - o) as computed by s_init_stft_result, and frame i is
s_fft_part at offset i * (w - o) with the Hann window. On the C side the
size_t divisor w - o wraps for o above w (giving frame count 0 whenever the
wrapped value exceeds samples_length, which Nat truncated subtraction and
division by zero reproduce for any samples_length below 2^64 - (o - w)) and
o = w divides by zero, undefined behavior that the total Lean division maps
to frame count 0. -/
noncomputable def s_stft (raw : s_raw_audio) (w o : Nat) : Except Int s_stft_t :=
  if s_is_pow_2 w then
    let len := raw.samples.length / (w - o)
    (List.range len).mapM (fun i => s_fft_part raw (i * (w - o)) w (some s_hann_function))
      |>.map (fun dfts => ⟨raw.samples.length, raw.stat, w, len, dfts⟩)
  else
    Except.error (-EINVAL)

/-- The raw sample indices read by s_fft_r with stride s, offset o and
length bign: the base case reads raw.samples[o], the recursive case reads
whatever its even and odd subcalls read. -/
def s_fft_r_reads (s o bign : Nat) : List Nat :=
  if _h1 : bign = 1 then [o]
  else if _h0 : bign = 0 then []
  else s_fft_r_reads (2 * s) o (bign / 2) ++ s_fft_r_reads (2 * s) (o + s) (bign / 2)
  termination_by bign
  decreasing_by all_goals omega

/-- Reference definition, following the wording of the specification: the
naive quadratic DFT, with term f j times e to the power -2 pi i j k / N. -/
noncomputable def naive_dft (f : Nat → ℂ) (N k : Nat) : ℂ :=
  ∑ j ∈ Finset.range N,
    f j * Complex.exp ((((-2 : ℝ) * Real.pi * (j : ℝ) * (k : ℝ) / (N : ℝ)) : ℂ) * Complex.I)

/-- The value the base case of s_fft_r stores for absolute sample position
p: the mono downmixed sample, multiplied - when a window function is given -
by the coefficient at index p - orgO, the position inside the original
window of the whole recursion. -/
noncomputable def s_windowed_sample (raw : s_raw_audio) (wfn : Option (Int → Nat → ℝ))
    (orgO orgN : Nat) (p : Nat) : ℝ :=
  match wfn with
  | none => ((s_mono_sample (raw.sampleAt p) : ℤ) : ℝ)
  | some w => ((s_mono_sample (raw.sampleAt p) : ℤ) : ℝ) * w ((p : Int) - (orgO : Int)) orgN

/-- Reference definition, following the wording of the specification and of
claim C3: the signed big endian integer formed from a list of bytes, the
nominal value occupying the low 8 * length bits, sign extended. -/
def signed_big_endian (bytes : List Nat) : Int :=
  let v : Nat := bytes.foldl (fun acc b => acc * 256 + b % 256) 0
  let w := 8 * bytes.length
  if v < 2 ^ (w - 1) then (v : Int) else (v : Int) - 2 ^ w

/-! Theorems. First, facts about the bitwise helpers. -/

/-- A nonzero value has its bit set at position log2. -/
theorem testBit_log2_self (v : Nat) (hv : v ≠ 0) : v.testBit v.log2 = true := by
  have hlow : 2 ^ v.log2 ≤ v := Nat.log2_self_le hv
  have hhigh : v < 2 ^ (v.log2 + 1) := Nat.lt_log2_self
  have hp : 2 ^ (v.log2 + 1) = 2 * 2 ^ v.log2 := by ring
  rw [Nat.testBit_to_div_mod]
  have : v / 2 ^ v.log2 = 1 := by
    apply Nat.div_eq_of_lt_le
    · simpa using hlow
    · omega
  simp [this]

/-- The power of two test agrees with the mathematical notion. -/
theorem s_is_pow_2_iff (v : Nat) : s_is_pow_2 v = true ↔ ∃ m, v = 2 ^ m := by
  unfold s_is_pow_2 s_rmo_off
  constructor
  · intro h
    simp only [Bool.and_eq_true, bne_iff_ne, ne_eq, beq_iff_eq] at h
    obtain ⟨hne, hand⟩ := h
    refine ⟨v.log2, ?_⟩
    by_contra hne2
    have hlow : 2 ^ v.log2 ≤ v := Nat.log2_self_le hne
    have hhigh : v < 2 ^ (v.log2 + 1) := Nat.lt_log2_self
    have hp : 2 ^ (v.log2 + 1) = 2 * 2 ^ v.log2 := by ring
    have hbit : v.testBit v.log2 = true := testBit_log2_self v hne
    have hbit2 : (v - 1).testBit v.log2 = true := by
      rw [Nat.testBit_to_div_mod]
      have : (v - 1) / 2 ^ v.log2 = 1 := by
        apply Nat.div_eq_of_lt_le
        · have : 2 ^ v.log2 ≠ v := fun hv => hne2 hv.symm
          omega
        · omega
      simp [this]
    have hb : (v &&& (v - 1)).testBit v.log2 = true := by
      rw [Nat.testBit_land, hbit, hbit2]; rfl
    rw [hand] at hb
    simp [Nat.zero_testBit] at hb
  · rintro ⟨m, rfl⟩
    simp only [Bool.and_eq_true, bne_iff_ne, ne_eq, beq_iff_eq]
    refine ⟨(Nat.two_pow_pos m).ne', ?_⟩
    apply Nat.eq_of_testBit_eq
    intro i
    rw [Nat.testBit_land, Nat.zero_testBit]
    rcases Nat.lt_trichotomy i m with hlt | rfl | hgt
    · rw [Nat.testBit_two_pow_of_ne (by omega)]; rfl
    · rw [Nat.testBit_two_pow_sub_one]
      simp
    · rw [Nat.testBit_two_pow_of_ne (by omega)]; rfl

/-- One smearing step of s_flp2: if the bits of a are the union of the bits
of v shifted right by 0 .. m - 1 places, then the bits of a OR (a >>> m) are
the union of the bits of v shifted right by 0 .. 2m - 1 places. -/
theorem flp2_smear_step {v a m : Nat}
    (h : ∀ j, a.testBit j = true ↔ ∃ k, k < m ∧ v.testBit (j + k) = true) :
    ∀ j, (a ||| a >>> m).testBit j = true ↔ ∃ k, k < 2 * m ∧ v.testBit (j + k) = true := by
  intro j
  rw [Nat.testBit_lor, Bool.or_eq_true, h j, Nat.testBit_shiftRight, h (m + j)]
  constructor
  · rintro (⟨k, hk, hb⟩ | ⟨k, hk, hb⟩)
    · exact ⟨k, by omega, hb⟩
    · refine ⟨m + k, by omega, ?_⟩
      rw [show j + (m + k) = m + j + k by omega]
      exact hb
  · rintro ⟨k, hk, hb⟩
    by_cases hkm : k < m
    · exact Or.inl ⟨k, hkm, hb⟩
    · refine Or.inr ⟨k - m, by omega, ?_⟩
      rw [show m + j + (k - m) = j + k by omega]
      exact hb

/-- The bits of the smeared value are the union of the bits of v shifted
right by 0 .. 63 places. -/
theorem s_flp2_smeared_testBit (v : Nat) (j : Nat) :
    (s_flp2_smeared v).testBit j = true ↔ ∃ k, k < 64 ∧ v.testBit (j + k) = true := by
  have hbase : ∀ j, v.testBit j = true ↔ ∃ k, k < 1 ∧ v.testBit (j + k) = true := by
    intro j
    constructor
    · intro hb; exact ⟨0, by omega, by simpa using hb⟩
    · rintro ⟨k, hk, hb⟩
      have hk0 : k = 0 := by omega
      subst hk0; simpa using hb
  have h1 := flp2_smear_step hbase
  have h2 := flp2_smear_step h1
  have h4 := flp2_smear_step h2
  have h8 := flp2_smear_step h4
  have h16 := flp2_smear_step h8
  have h32 := flp2_smear_step h16
  exact h32 j

/-- The smeared value is all ones up to and including the leading bit. -/
theorem s_flp2_smeared_eq (v : Nat) (hv : v ≠ 0) (hr : v < 2 ^ 64) :
    s_flp2_smeared v = 2 ^ (v.log2 + 1) - 1 := by
  have hn63 : v.log2 < 64 := (Nat.log2_lt hv).mpr hr
  have hhigh : v < 2 ^ (v.log2 + 1) := Nat.lt_log2_self
  apply Nat.eq_of_testBit_eq
  intro j
  rw [Nat.testBit_two_pow_sub_one]
  by_cases hj : j < v.log2 + 1
  · rw [decide_eq_true hj, s_flp2_smeared_testBit]
    refine ⟨v.log2 - j, by omega, ?_⟩
    rw [show j + (v.log2 - j) = v.log2 by omega]
    exact testBit_log2_self v hv
  · rw [decide_eq_false hj, Bool.eq_false_iff]
    intro hcon
    rw [s_flp2_smeared_testBit] at hcon
    obtain ⟨k, _, hb⟩ := hcon
    have hlt : v < 2 ^ (j + k) :=
      lt_of_lt_of_le hhigh (Nat.pow_le_pow_right (by norm_num) (by omega))
    rw [Nat.testBit_lt_two_pow hlt] at hb
    exact Bool.false_ne_true hb

/-- s_flp2 computes the largest power of two at most v, in exponent form:
for nonzero v in the uint64_t range it returns 2 to the floor base 2
logarithm of v. -/
theorem s_flp2_eq_pow_log2 (v : Nat) (hv : v ≠ 0) (hr : v < 2 ^ 64) :
    s_flp2 v = 2 ^ v.log2 := by
  have hsplit : s_flp2 v = s_flp2_smeared v - (s_flp2_smeared v) >>> 1 := rfl
  rw [hsplit, s_flp2_smeared_eq v hv hr, Nat.shiftRight_eq_div_pow]
  have hp : 2 ^ (v.log2 + 1) = 2 * 2 ^ v.log2 := by ring
  have hpos : 0 < 2 ^ v.log2 := Nat.two_pow_pos _
  omega

/-- Claim C8: for every pixel_width w of at least 1 and sample_count s (a
size_t, hence below 2^64), s_get_window_size fails with -EINVAL exactly when
s < w, and otherwise returns the largest power of two at most s / w, which
guarantees at least one FFT frame per horizontal pixel: s / result is at
least w. -/
theorem C8_select_window_size (w s : Nat) (hw : 1 ≤ w) (hs : s < 2 ^ 64) :
    (s < w → s_get_window_size w s = Except.error (-EINVAL)) ∧
    (w ≤ s → ∃ r, s_get_window_size w s = Except.ok r ∧ s_is_pow_2 r = true ∧
      r ≤ s / w ∧ (∀ p, s_is_pow_2 p = true → p ≤ s / w → p ≤ r) ∧ w ≤ s / r) :=
  by
  constructor
  · intro hlt
    unfold s_get_window_size
    rw [if_pos hlt]
  · intro hle
    have hnlt : ¬ s < w := by omega
    have hq1 : 1 ≤ s / w := (Nat.one_le_div_iff (by omega)).mpr hle
    have hqr : s / w < 2 ^ 64 := lt_of_le_of_lt (Nat.div_le_self s w) hs
    have hflp : s_flp2 (s / w) = 2 ^ (s / w).log2 :=
      s_flp2_eq_pow_log2 (s / w) (by omega) hqr
    refine ⟨s_flp2 (s / w), ?_, ?_, ?_, ?_, ?_⟩
    · unfold s_get_window_size
      rw [if_neg hnlt]
    · rw [s_is_pow_2_iff, hflp]
      exact ⟨_, rfl⟩
    · rw [hflp]
      exact Nat.log2_self_le (by omega)
    · intro p hp hple
      rw [s_is_pow_2_iff] at hp
      obtain ⟨a, rfl⟩ := hp
      rw [hflp]
      apply Nat.pow_le_pow_right (by norm_num)
      by_contra hcon
      have ha : (s / w).log2 < a := by omega
      have : s / w < 2 ^ a := (Nat.log2_lt (by omega)).mp ha
      have h2 : 2 ^ a ≤ s / w := hple
      omega
    · rw [hflp]
      have h1 : s / (s / w) ≤ s / 2 ^ (s / w).log2 := by
        apply Nat.div_le_div_left (Nat.log2_self_le (by omega)) (Nat.two_pow_pos _)
      have h2 : w ≤ s / (s / w) := by
        rw [Nat.le_div_iff_mul_le (by omega)]
        calc w * (s / w) = (s / w) * w := by ring
        _ ≤ s := Nat.div_mul_le_self s w
      omega

/-- Witness for C8, at the values from the specification: pixel width 800
and sample count 44100 * 2. -/
theorem C8_select_window_size_witness :
    1 ≤ 800 ∧ 88200 < 2 ^ 64 ∧
      ((88200 < 800 → s_get_window_size 800 88200 = Except.error (-EINVAL)) ∧
        (800 ≤ 88200 → ∃ r, s_get_window_size 800 88200 = Except.ok r ∧
          s_is_pow_2 r = true ∧ r ≤ 88200 / 800 ∧
          (∀ p, s_is_pow_2 p = true → p ≤ 88200 / 800 → p ≤ r) ∧ 800 ≤ 88200 / r)) :=
  ⟨by norm_num, by norm_num, C8_select_window_size 800 88200 (by norm_num) (by norm_num)⟩

/-! The MP3 container frame locator. -/

/-- The ID3v2 detection condition of s_get_mp3_frame_header_offset compares
file[0] with three different constants, so it is false for every input byte:
the wrapper skipping branch is dead code. -/
theorem id3_condition_always_false (b : Nat) :
    (b == 0x49 && b == 0x44 && b == 0x33) = false := by
  by_cases h : b = 0x49
  · subst h; rfl
  · have hb : (b == 0x49) = false := beq_eq_false_iff_ne.mpr h
    rw [hb, Bool.false_and, Bool.false_and]

/-- A position where the sync test succeeds lies strictly inside the
buffer, with one byte to spare. -/
theorem s_is_mp3_frame_header_bounds {file : List Nat} {i : Nat}
    (h : s_is_mp3_frame_header file i = true) : i + 1 < file.length := by
  unfold s_is_mp3_frame_header at h
  simp only [Bool.and_eq_true, Bool.or_eq_true, beq_iff_eq] at h
  by_contra hcon
  have hge : file.length ≤ i + 1 := by omega
  rw [List.getD_eq_default _ _ hge] at h
  omega

/-- Claim C7: for a file of at least 10 bytes, the locator returns an offset
satisfying the frame sync test whenever the pattern occurs anywhere in the
buffer, and fails with -EINVAL exactly when it occurs nowhere. -/
theorem C7_locate_frame_sync (file : List Nat) (hlen : 10 ≤ file.length) :
    ((∃ i, s_is_mp3_frame_header file i = true) →
      ∃ off, s_get_mp3_frame_header_offset file = Except.ok off ∧
        s_is_mp3_frame_header file off = true) ∧
    ((¬ ∃ i, s_is_mp3_frame_header file i = true) →
      s_get_mp3_frame_header_offset file = Except.error (-EINVAL)) :=
  by
  unfold s_get_mp3_frame_header_offset
  rw [if_neg (by omega)]
  simp only [id3_condition_always_false, Bool.false_eq_true, if_false]
  constructor
  · rintro ⟨i, hi⟩
    by_cases h0 : s_is_mp3_frame_header file 0
    · refine ⟨0, ?_, h0⟩
      simp only [h0, if_true]
    · simp only [h0, Bool.false_eq_true, if_false]
      have hib : i + 1 < file.length := s_is_mp3_frame_header_bounds hi
      have hmem : i ∈ List.range (file.length - 1) := List.mem_range.mpr (by omega)
      have hsome : ((List.range (file.length - 1)).find?
          (fun i => s_is_mp3_frame_header file i)).isSome := by
        rw [List.find?_isSome]
        exact ⟨i, hmem, hi⟩
      obtain ⟨j, hj⟩ := Option.isSome_iff_exists.mp hsome
      have hjp : s_is_mp3_frame_header file j = true := List.find?_some hj
      rw [hj]
      refine ⟨j, ?_, hjp⟩
      simp only [hjp, if_true]
  · intro hno
    have hall : ∀ off, s_is_mp3_frame_header file off = false := by
      intro off
      rw [Bool.eq_false_iff]
      exact fun hc => hno ⟨off, hc⟩
    have hnone : (List.range (file.length - 1)).find?
        (fun i => s_is_mp3_frame_header file i) = none := by
      rw [List.find?_eq_none]
      intro x _
      simp [hall x]
    simp only [hall, hnone, Bool.false_eq_true, if_false]

/-- Claim C2 (code bug): a buffer that starts with the 3 byte wrapper magic
0x49 0x44 0x33, declares synchsafe body size S = 3 and has the footer flag
unset; the tag body holds a spurious sync pattern at offset 10 and the real
frame header sits at the claimed offset S + 10 = 13. Because the detection
condition compares file[0] three times, the wrapper is never recognized and
the fallback scan returns 10 instead of 13. -/
theorem C2_wrapper_offset_bug :
    s_get_mp3_frame_header_offset
        [0x49, 0x44, 0x33, 0x04, 0x00, 0x00, 0x00, 0x00, 0x00, 0x03,
          0xFF, 0xFB, 0x00, 0xFF, 0xFB] = Except.ok 10 ∧
    s_from_synchsafe_int32
        [0x49, 0x44, 0x33, 0x04, 0x00, 0x00, 0x00, 0x00, 0x00, 0x03,
          0xFF, 0xFB, 0x00, 0xFF, 0xFB] 6 + 10 = 13 ∧
    s_is_mp3_frame_header
        [0x49, 0x44, 0x33, 0x04, 0x00, 0x00, 0x00, 0x00, 0x00, 0x03,
          0xFF, 0xFB, 0x00, 0xFF, 0xFB] 13 = true ∧
    (10 : Nat) ≠ 13 :=
  ⟨by rfl, by rfl, by rfl, by decide⟩

/-! The raw PCM materializer. -/

/-- Shift arithmetic for a bit depth that is a positive multiple of 8. -/
theorem bit_depth_shifts (m : Nat) : (8 * m) >>> 2 = 2 * m ∧ (8 * m) >>> 3 = m := by
  simp only [Nat.shiftRight_eq_div_pow]
  omega

/-- Closed form of the decoding while loop: starting at sample index j and
byte offset j * (2m) over a buffer of exactly L frames, the loop fills
samples j .. L - 2 with the decoded frames, clears sample L - 1 (the final
frame is skipped because the stop test uses at least rather than greater),
stops with soff = L - 1 and touches no other entry. -/
theorem s_decode_loop_closed_form (d : List Nat) (m L : Nat) (hmpos : 0 < m)
    (hL : d.length = L * (2 * m)) :
    ∀ fuel j s, j < L → L - j ≤ fuel →
      ∃ sfin, s_decode_loop d d.length (8 * m) fuel s j (j * (2 * m)) =
          some (sfin, L - 1) ∧
        (∀ i, i < j → sfin i = s i) ∧
        (∀ i, j ≤ i → i < L - 1 → sfin i = s_frame_sample d (i * (2 * m)) m) ∧
        sfin (L - 1) = ⟨0, 0⟩ ∧
        (∀ i, L - 1 < i → sfin i = s i) :=
  by
  obtain ⟨h2, h3⟩ := bit_depth_shifts m
  intro fuel
  induction fuel with
  | zero => intro j s hj hfuel; omega
  | succ fuel ih =>
    intro j s hj hfuel
    simp only [s_decode_loop, s_process_next_sample, h2, h3]
    by_cases hlast : j = L - 1
    · subst hlast
      rw [if_pos (by rw [hL]; have := Nat.two_pow_pos 1; nlinarith [Nat.sub_add_cancel (show 1 ≤ L by omega)])]
      refine ⟨Function.update s (L - 1) ⟨0, 0⟩, rfl, ?_, ?_, ?_, ?_⟩
      · intro i hi; exact Function.update_noteq (by omega) _ s
      · intro i hi1 hi2; omega
      · exact Function.update_same _ _ s
      · intro i hi; exact Function.update_noteq (by omega) _ s
    · have hjlt : j + 1 < L := by omega
      rw [if_neg (by rw [hL]; push_neg; have : (j + 1) * (2 * m) ≤ (L - 1) * (2 * m) := Nat.mul_le_mul_right _ (by omega); nlinarith [Nat.sub_le L 1])]
      have hdoff : j * (2 * m) + m + m = (j + 1) * (2 * m) := by ring
      rw [hdoff]
      obtain ⟨sfin, hrun, hlow, hmid, hend, hhigh⟩ :=
        ih (j + 1)
          (Function.update (Function.update s j ⟨0, 0⟩) j
            ⟨toInt32 (s_read_channel d (j * (2 * m)) m),
              toInt32 (s_read_channel d (j * (2 * m) + m) m)⟩)
          (by omega) (by omega)
      refine ⟨sfin, hrun, ?_, ?_, hend, ?_⟩
      · intro i hi
        rw [hlow i (by omega), Function.update_noteq (by omega) _ _,
          Function.update_noteq (by omega) _ s]
      · intro i hi1 hi2
        by_cases hij : i = j
        · subst hij
          rw [hlow i (by omega), Function.update_same]
          rfl
        · exact hmid i (by omega) hi2
      · intro i hi
        rw [hhigh i hi, Function.update_noteq (by omega) _ _,
          Function.update_noteq (by omega) _ s]

/-- The top level decode succeeds on a whole number L of frames, producing
L samples of which the first L - 1 are the decoded frames and the last is
the cleared, never read sample. -/
theorem s_decode_raw_audio_closed_form (d : List Nat) (m L : Nat) (hmpos : 0 < m)
    (hL : d.length = L * (2 * m)) (hL1 : 1 ≤ L) :
    s_decode_raw_audio d (8 * m) =
      Except.ok ((List.range L).map (fun i =>
        if i < L - 1 then s_frame_sample d (i * (2 * m)) m else ⟨0, 0⟩)) :=
  by
  obtain ⟨h2, h3⟩ := bit_depth_shifts m
  have hLbound : L ≤ d.length := by
    rw [hL]; nlinarith
  obtain ⟨sfin, hrun, _, hmid, hend, _⟩ :=
    s_decode_loop_closed_form d m L hmpos hL (d.length + 1) 0 (fun _ => ⟨0, 0⟩)
      (by omega) (by omega)
  unfold s_decode_raw_audio
  simp only [h2, h3]
  rw [if_neg (by rw [hL]; simp [Nat.mul_mod_left])]
  rw [show (0 : Nat) * (2 * m) = 0 from by ring] at hrun
  rw [hrun]
  have hsl : d.length / (2 * m) = L := by
    rw [hL]; exact Nat.mul_div_cancel _ (by omega)
  show (if L - 1 + 1 ≠ d.length / (2 * m) then Except.error (-EINVAL)
      else Except.ok (List.map sfin (List.range (d.length / (2 * m))))) = _
  simp only [hsl]
  rw [if_neg (by omega)]
  congr 1
  apply List.map_congr_left
  intro i hi
  rw [List.mem_range] at hi
  by_cases hil : i < L - 1
  · rw [if_pos hil, hmid i (by omega) hil]
  · have : i = L - 1 := by omega
    subst this
    rw [if_neg hil, hend]

/-- Claim C9: for a PCM buffer whose byte length is a nonzero exact multiple
of 2 * (bit_depth / 8), decoding succeeds with
samples_length = buffer_length / (2 * (bit_depth / 8)) samples, yet the
final PCM frame is never read: the last sample is always the zero pair, and
the result is unchanged under any modification of the final frame bytes. -/
theorem C9_decode_skips_last_frame (d : List Nat) (m L : Nat) (hmpos : 0 < m)
    (hL : d.length = L * (2 * m)) (hL1 : 1 ≤ L) :
    ∃ samples, s_decode_raw_audio d (8 * m) = Except.ok samples ∧
      samples.length = d.length / (2 * m) ∧
      samples.getLast? = some ⟨0, 0⟩ ∧
      ∀ d2 : List Nat, d2.length = d.length →
        (∀ p, p < (L - 1) * (2 * m) → d2.getD p 0 = d.getD p 0) →
        s_decode_raw_audio d2 (8 * m) = s_decode_raw_audio d (8 * m) :=
  by
  refine ⟨_, s_decode_raw_audio_closed_form d m L hmpos hL hL1, ?_, ?_, ?_⟩
  · rw [List.length_map, List.length_range, hL, Nat.mul_div_cancel _ (by omega)]
  · have hne : (List.range L).map (fun i =>
        if i < L - 1 then s_frame_sample d (i * (2 * m)) m else (⟨0, 0⟩ : s_stereo_sample)) ≠ [] := by
      simp only [ne_eq, List.map_eq_nil_iff, List.range_eq_nil]
      omega
    rw [List.getLast?_eq_getLast _ hne, List.getLast_eq_getElem]
    simp only [List.length_map, List.length_range]
    rw [List.getElem_map, List.getElem_range]
    simp only [Option.some_inj]
    rw [if_neg (by omega)]
  · intro d2 hlen hagree
    have hframes : ∀ i, i < L - 1 →
        s_frame_sample d2 (i * (2 * m)) m = s_frame_sample d (i * (2 * m)) m := by
      intro i hi
      have hreads : ∀ doff k, doff + k ≤ (L - 1) * (2 * m) →
          s_read_channel d2 doff k = s_read_channel d doff k := by
        intro doff k hdk
        unfold s_read_channel
        apply List.foldl_ext
        intro acc o ho
        rw [List.mem_range] at ho
        rw [hagree (doff + o) (by omega)]
      unfold s_frame_sample
      have hb : (i + 1) * (2 * m) ≤ (L - 1) * (2 * m) :=
        Nat.mul_le_mul_right _ (by omega)
      rw [hreads _ _ (by nlinarith), hreads _ _ (by nlinarith)]
    rw [s_decode_raw_audio_closed_form d2 m L hmpos (by omega) hL1,
      s_decode_raw_audio_closed_form d m L hmpos hL hL1]
    congr 1
    apply List.map_congr_left
    intro i hi
    by_cases hil : i < L - 1
    · rw [if_pos hil, if_pos hil, hframes i hil]
    · rw [if_neg hil, if_neg hil]

/-- Witness for C9: a 16 bit buffer of two frames. -/
theorem C9_decode_skips_last_frame_witness :
    0 < 2 ∧ ([1, 2, 3, 4, 5, 6, 7, 8] : List Nat).length = 2 * (2 * 2) ∧ 1 ≤ 2 ∧
      (∃ samples, s_decode_raw_audio [1, 2, 3, 4, 5, 6, 7, 8] (8 * 2) = Except.ok samples ∧
        samples.length = ([1, 2, 3, 4, 5, 6, 7, 8] : List Nat).length / (2 * 2) ∧
        samples.getLast? = some ⟨0, 0⟩ ∧
        ∀ d2 : List Nat, d2.length = ([1, 2, 3, 4, 5, 6, 7, 8] : List Nat).length →
          (∀ p, p < (2 - 1) * (2 * 2) → d2.getD p 0 = ([1, 2, 3, 4, 5, 6, 7, 8] : List Nat).getD p 0) →
          s_decode_raw_audio d2 (8 * 2) = s_decode_raw_audio [1, 2, 3, 4, 5, 6, 7, 8] (8 * 2)) :=
  ⟨by decide, by decide, by decide,
    C9_decode_skips_last_frame [1, 2, 3, 4, 5, 6, 7, 8] 2 2 (by decide) (by decide) (by decide)⟩

/-- Claim C3 (code bug): the 16 bit frame with left channel bytes
0x00 0x80 decodes to left = -128 rather than the signed big endian value
128, because the const char bytes are sign extended before being ORed into
the accumulator. The buffer carries a second frame so that the first one is
actually read (see C9). -/
theorem C3_big_endian_sign_bug :
    s_decode_raw_audio [0x00, 0x80, 0x00, 0x01, 0x00, 0x00, 0x00, 0x00] 16 =
      Except.ok [⟨-128, 1⟩, ⟨0, 0⟩] ∧
    signed_big_endian [0x00, 0x80] = 128 ∧
    ((-128 : Int) ≠ 128) :=
  ⟨by rfl, by rfl, by decide⟩

/-! The FFT engine. First the bridge from the embedded complex helpers to
the Mathlib complex field. -/

/-- s_cadd is complex addition. -/
theorem s_cadd_eq (a b : ℂ) : s_cadd a b = a + b := by
  unfold s_cadd
  apply Complex.ext <;> simp

/-- s_cmul is complex multiplication. -/
theorem s_cmul_eq (a b : ℂ) : s_cmul a b = a * b := by
  unfold s_cmul
  apply Complex.ext <;> simp [Complex.mul_re, Complex.mul_im] <;> ring

/-- s_cexp x is the complex exponential of x i. -/
theorem s_cexp_eq (x : ℝ) : s_cexp x = Complex.exp ((x : ℂ) * Complex.I) := by
  unfold s_cexp
  apply Complex.ext
  · rw [Complex.exp_ofReal_mul_I_re]
  · rw [Complex.exp_ofReal_mul_I_im]

/-- Splitting a sum over an even range into even and odd indexed parts. -/
theorem sum_range_even_odd (g : Nat → ℂ) (n : Nat) :
    ∑ j ∈ Finset.range (2 * n), g j =
      (∑ t ∈ Finset.range n, g (2 * t)) + ∑ t ∈ Finset.range n, g (2 * t + 1) := by
  induction n with
  | zero => simp
  | succ n ih =>
    rw [show 2 * (n + 1) = 2 * n + 1 + 1 from by ring, Finset.sum_range_succ,
      Finset.sum_range_succ, ih, Finset.sum_range_succ, Finset.sum_range_succ]
    ring

/-- The Danielson-Lanczos recombination at the level of the naive DFT: for
k below half, the DFT of length 2 * half at positions k and k + half equals
the even part plus the lower (respectively upper) twiddle factor times the
odd part. -/
theorem dl_step (f : Nat → ℂ) (half : Nat) (hh : 0 < half) (k : Nat) (hk : k < half) :
    naive_dft f (2 * half) k =
      naive_dft (fun t => f (2 * t)) half k +
        Complex.exp ((((-2 : ℝ) * Real.pi / ((2 * half : Nat) : ℝ) * (k : ℝ)) : ℂ) * Complex.I) *
          naive_dft (fun t => f (2 * t + 1)) half k ∧
    naive_dft f (2 * half) (k + half) =
      naive_dft (fun t => f (2 * t)) half k +
        Complex.exp ((((-2 : ℝ) * Real.pi / ((2 * half : Nat) : ℝ) * ((k + half : Nat) : ℝ)) : ℂ) * Complex.I) *
          naive_dft (fun t => f (2 * t + 1)) half k := by
  have hz : ((half : ℂ)) ≠ 0 := Nat.cast_ne_zero.mpr (by omega)
  constructor
  · unfold naive_dft
    rw [sum_range_even_odd]
    simp only []
    congr 1
    · apply Finset.sum_congr rfl
      intro t ht
      congr 1
      rw [Complex.exp_eq_exp_iff_exists_int]
      refine ⟨0, ?_⟩
      push_cast
      field_simp
      ring
    · rw [Finset.mul_sum]
      apply Finset.sum_congr rfl
      intro t ht
      rw [mul_comm (Complex.exp _) (f (2 * t + 1) * Complex.exp _),
        mul_assoc (f (2 * t + 1)) (Complex.exp _) (Complex.exp _), ← Complex.exp_add]
      congr 1
      rw [Complex.exp_eq_exp_iff_exists_int]
      refine ⟨0, ?_⟩
      push_cast
      field_simp
      ring
  · unfold naive_dft
    rw [sum_range_even_odd]
    simp only []
    congr 1
    · apply Finset.sum_congr rfl
      intro t ht
      congr 1
      rw [Complex.exp_eq_exp_iff_exists_int]
      refine ⟨-(t : ℤ), ?_⟩
      push_cast
      field_simp
      ring
    · rw [Finset.mul_sum]
      apply Finset.sum_congr rfl
      intro t ht
      rw [mul_comm (Complex.exp _) (f (2 * t + 1) * Complex.exp _),
        mul_assoc (f (2 * t + 1)) (Complex.exp _) (Complex.exp _), ← Complex.exp_add]
      congr 1
      rw [Complex.exp_eq_exp_iff_exists_int]
      refine ⟨-(t : ℤ), ?_⟩
      push_cast
      field_simp
      ring

/-- Pointwise congruence for the naive DFT. -/
theorem naive_dft_congr {f g : Nat → ℂ} (h : ∀ j, f j = g j) (N k : Nat) :
    naive_dft f N k = naive_dft g N k := by
  unfold naive_dft
  exact Finset.sum_congr rfl (fun j _ => by rw [h j])

/-- The result positions s * k + o - dfto are injective in k when the
stride is positive and dfto is at most o. -/
theorem stride_pos_inj {s o dfto a b : Nat} (hs : 0 < s) (ho : dfto ≤ o)
    (h : s * a + o - dfto = s * b + o - dfto) : a = b := by
  have hx : s * a = s * b := by omega
  exact Nat.eq_of_mul_eq_mul_left hs hx

/-- An even result position (stride 2s, offset o) never coincides with an
odd result position (stride 2s, offset o + s). -/
theorem even_odd_pos_ne {s o dfto t k : Nat} (hs : 0 < s) (ho : dfto ≤ o) :
    2 * s * t + o - dfto ≠ 2 * s * k + (o + s) - dfto := by
  intro h
  have hx : 2 * s * t = 2 * s * k + s := by omega
  have e1 : s * (2 * t) = 2 * s * t := by ring
  have e2 : s * (2 * k + 1) = 2 * s * k + s := by ring
  have heq : 2 * t = 2 * k + 1 :=
    Nat.eq_of_mul_eq_mul_left hs (e1.trans (hx.trans e2.symm))
  omega

/-- Characterization of the combine loop of s_fft_r: running the first n
iterations writes the lower half combination at positions s * idx + o - dfto
and the upper half combination at positions s * (idx + bign / 2) + o - dfto
for idx below n, and leaves every other position unchanged. -/
theorem s_fft_combine_spec (dftprime : Nat → ℂ) (dfto s o bign : Nat)
    (hs : 0 < s) (ho : dfto ≤ o) :
    ∀ n dft, n ≤ bign / 2 →
      ((∀ idx, idx < n →
          s_fft_combine dftprime dfto s o bign n dft (s * idx + o - dfto) =
            s_cadd (dftprime (2 * idx))
              (s_cmul (s_cexp (-2 * Real.pi / (bign : ℝ) * (idx : ℝ)))
                (dftprime (2 * idx + 1))) ∧
          s_fft_combine dftprime dfto s o bign n dft (s * (idx + bign / 2) + o - dfto) =
            s_cadd (dftprime (2 * idx))
              (s_cmul (s_cexp (-2 * Real.pi / (bign : ℝ) * ((idx + bign / 2 : Nat) : ℝ)))
                (dftprime (2 * idx + 1)))) ∧
        (∀ j, (∀ idx, idx < n →
            j ≠ s * idx + o - dfto ∧ j ≠ s * (idx + bign / 2) + o - dfto) →
          s_fft_combine dftprime dfto s o bign n dft j = dft j)) :=
  by
  intro n
  induction n with
  | zero =>
    intro dft hn
    refine ⟨fun idx hidx => absurd hidx (by omega), fun j hj => rfl⟩
  | succ n ih =>
    intro dft hn
    have hhalf : 1 ≤ bign / 2 := by omega
    obtain ⟨ihvals, ihframe⟩ := ih dft (by omega)
    simp only [s_fft_combine]
    constructor
    · intro idx hidx
      by_cases hin : idx = n
      · subst hin
        constructor
        · rw [Function.update_noteq, Function.update_same]
          intro hcon
          have : idx = idx + bign / 2 := stride_pos_inj hs ho hcon
          omega
        · rw [Function.update_same]
      · have hlt : idx < n := by omega
        obtain ⟨hv1, hv2⟩ := ihvals idx hlt
        constructor
        · rw [Function.update_noteq, Function.update_noteq, hv1]
          · intro hcon
            have : idx = n := stride_pos_inj hs ho hcon
            omega
          · intro hcon
            have : idx = n + bign / 2 := stride_pos_inj hs ho hcon
            omega
        · rw [Function.update_noteq, Function.update_noteq, hv2]
          · intro hcon
            have : idx + bign / 2 = n := stride_pos_inj hs ho hcon
            omega
          · intro hcon
            have : idx + bign / 2 = n + bign / 2 := stride_pos_inj hs ho hcon
            omega
    · intro j hj
      obtain ⟨hne1, hne2⟩ := hj n (by omega)
      rw [Function.update_noteq hne2, Function.update_noteq hne1]
      exact ihframe j (fun idx hidx => hj idx (by omega))

/-- Correctness of the in place FFT recursion: called with a power of two
length 2 ^ m, positive stride and dfto at most o, it writes at position
s * k + o - dfto the naive DFT (at frequency k) of the windowed mono
sequence sampled with stride s from offset o, and leaves every other
position of the buffer unchanged. -/
theorem s_fft_r_spec (raw : s_raw_audio) (wfn : Option (Int → Nat → ℝ)) (orgO orgN : Nat) :
    ∀ m (dft : Nat → ℂ) (dfto s o : Nat), 0 < s → dfto ≤ o →
      ((∀ k, k < 2 ^ m →
          s_fft_r dft dfto raw s o (2 ^ m) wfn orgO orgN (s * k + o - dfto) =
            naive_dft
              (fun j => ⟨s_windowed_sample raw wfn orgO orgN (s * j + o), 0⟩) (2 ^ m) k) ∧
        (∀ j, (∀ k, k < 2 ^ m → j ≠ s * k + o - dfto) →
          s_fft_r dft dfto raw s o (2 ^ m) wfn orgO orgN j = dft j)) :=
  by
  intro m
  induction m with
  | zero =>
    intro dft dfto s o hs ho
    simp only [pow_zero]
    have hbody : s_fft_r dft dfto raw s o 1 wfn orgO orgN =
        Function.update dft (o - dfto)
          ⟨s_windowed_sample raw wfn orgO orgN o, 0⟩ := by
      rw [s_fft_r]
      rfl
    constructor
    · intro k hk
      have hk0 : k = 0 := by omega
      subst hk0
      rw [Nat.mul_zero, Nat.zero_add, hbody, Function.update_same]
      unfold naive_dft
      rw [Finset.sum_range_one]
      beta_reduce
      rw [Nat.mul_zero, Nat.zero_add]
      push_cast
      norm_num [Complex.exp_zero]
    · intro j hj
      rw [hbody]
      apply Function.update_noteq
      have hne := hj 0 (by omega)
      rwa [Nat.mul_zero, Nat.zero_add] at hne
  | succ m ih =>
    intro dft dfto s o hs ho
    have h2m : (1 : Nat) ≤ 2 ^ m := Nat.one_le_two_pow
    have hb : (2 : Nat) ^ (m + 1) = 2 * 2 ^ m := by ring
    have hbdiv : (2 : Nat) ^ (m + 1) / 2 = 2 ^ m := by
      rw [hb]; exact Nat.mul_div_cancel_left _ (by norm_num)
    have hne1 : ¬ ((2 : Nat) ^ (m + 1) = 1) := by omega
    have hne0 : ¬ ((2 : Nat) ^ (m + 1) = 0) := by omega
    have hstep : s_fft_r dft dfto raw s o (2 ^ (m + 1)) wfn orgO orgN =
        s_fft_combine
          (fun idx =>
            s_fft_r (s_fft_r dft dfto raw (2 * s) o (2 ^ m) wfn orgO orgN) dfto raw
              (2 * s) (o + s) (2 ^ m) wfn orgO orgN (s * idx + o - dfto))
          dfto s o (2 ^ (m + 1)) (2 ^ m)
          (s_fft_r (s_fft_r dft dfto raw (2 * s) o (2 ^ m) wfn orgO orgN) dfto raw
            (2 * s) (o + s) (2 ^ m) wfn orgO orgN) := by
      rw [s_fft_r, dif_neg hne1, dif_neg hne0]
      show s_fft_combine
          (fun idx =>
            s_fft_r (s_fft_r dft dfto raw (2 * s) o (2 ^ (m + 1) / 2) wfn orgO orgN) dfto raw
              (2 * s) (o + s) (2 ^ (m + 1) / 2) wfn orgO orgN (s * idx + o - dfto))
          dfto s o (2 ^ (m + 1)) (2 ^ (m + 1) / 2)
          (s_fft_r (s_fft_r dft dfto raw (2 * s) o (2 ^ (m + 1) / 2) wfn orgO orgN) dfto raw
            (2 * s) (o + s) (2 ^ (m + 1) / 2) wfn orgO orgN) = _
      rw [hbdiv]
    obtain ⟨ihEv, ihEf⟩ := ih dft dfto (2 * s) o (by omega) ho
    obtain ⟨ihOv, ihOf⟩ :=
      ih (s_fft_r dft dfto raw (2 * s) o (2 ^ m) wfn orgO orgN) dfto (2 * s) (o + s)
        (by omega) (by omega)
    obtain ⟨csv, csf⟩ :=
      s_fft_combine_spec
        (fun idx =>
          s_fft_r (s_fft_r dft dfto raw (2 * s) o (2 ^ m) wfn orgO orgN) dfto raw
            (2 * s) (o + s) (2 ^ m) wfn orgO orgN (s * idx + o - dfto))
        dfto s o (2 ^ (m + 1)) hs ho (2 ^ m)
        (s_fft_r (s_fft_r dft dfto raw (2 * s) o (2 ^ m) wfn orgO orgN) dfto raw
          (2 * s) (o + s) (2 ^ m) wfn orgO orgN)
        (by rw [hbdiv])
    rw [hbdiv] at csv csf
    have hdp_even : ∀ t, t < 2 ^ m →
        s_fft_r (s_fft_r dft dfto raw (2 * s) o (2 ^ m) wfn orgO orgN) dfto raw
            (2 * s) (o + s) (2 ^ m) wfn orgO orgN (s * (2 * t) + o - dfto) =
          naive_dft
            (fun j => ⟨s_windowed_sample raw wfn orgO orgN (2 * s * j + o), 0⟩) (2 ^ m) t := by
      intro t ht
      rw [show s * (2 * t) + o - dfto = 2 * s * t + o - dfto from by
        rw [show s * (2 * t) = 2 * s * t from by ring]]
      rw [ihOf (2 * s * t + o - dfto)
        (fun k hk => even_odd_pos_ne hs ho)]
      exact ihEv t ht
    have hdp_odd : ∀ t, t < 2 ^ m →
        s_fft_r (s_fft_r dft dfto raw (2 * s) o (2 ^ m) wfn orgO orgN) dfto raw
            (2 * s) (o + s) (2 ^ m) wfn orgO orgN (s * (2 * t + 1) + o - dfto) =
          naive_dft
            (fun j => ⟨s_windowed_sample raw wfn orgO orgN (2 * s * j + (o + s)), 0⟩)
            (2 ^ m) t := by
      intro t ht
      rw [show s * (2 * t + 1) + o - dfto = 2 * s * t + (o + s) - dfto from by
        rw [show s * (2 * t + 1) + o = 2 * s * t + (o + s) from by ring]]
      exact ihOv t ht
    constructor
    · intro k hk
      rw [hstep]
      by_cases hkh : k < 2 ^ m
      · obtain ⟨hlow, _⟩ := csv k hkh
        rw [hlow]
        rw [s_cadd_eq, s_cmul_eq, s_cexp_eq, hdp_even k hkh, hdp_odd k hkh, hb]
        obtain ⟨hdl, _⟩ :=
          dl_step
            (fun j => (⟨s_windowed_sample raw wfn orgO orgN (s * j + o), 0⟩ : ℂ))
            (2 ^ m) (by omega) k hkh
        rw [hdl]
        congr 1
        · apply naive_dft_congr
          intro t
          show (⟨s_windowed_sample raw wfn orgO orgN (2 * s * t + o), 0⟩ : ℂ) =
            ⟨s_windowed_sample raw wfn orgO orgN (s * (2 * t) + o), 0⟩
          rw [show s * (2 * t) + o = 2 * s * t + o from by ring]
        · congr 1
          · congr 1
            push_cast
            ring
          · apply naive_dft_congr
            intro t
            show (⟨s_windowed_sample raw wfn orgO orgN (2 * s * t + (o + s)), 0⟩ : ℂ) =
              ⟨s_windowed_sample raw wfn orgO orgN (s * (2 * t + 1) + o), 0⟩
            rw [show s * (2 * t + 1) + o = 2 * s * t + (o + s) from by ring]
      · have ht : k - 2 ^ m < 2 ^ m := by omega
        rw [show k = (k - 2 ^ m) + 2 ^ m from by omega]
        obtain ⟨_, hup⟩ := csv (k - 2 ^ m) ht
        rw [hup]
        rw [s_cadd_eq, s_cmul_eq, s_cexp_eq, hdp_even (k - 2 ^ m) ht,
          hdp_odd (k - 2 ^ m) ht, hb]
        obtain ⟨_, hdl⟩ :=
          dl_step
            (fun j => (⟨s_windowed_sample raw wfn orgO orgN (s * j + o), 0⟩ : ℂ))
            (2 ^ m) (by omega) (k - 2 ^ m) ht
        rw [hdl]
        congr 1
        · apply naive_dft_congr
          intro t
          show (⟨s_windowed_sample raw wfn orgO orgN (2 * s * t + o), 0⟩ : ℂ) =
            ⟨s_windowed_sample raw wfn orgO orgN (s * (2 * t) + o), 0⟩
          rw [show s * (2 * t) + o = 2 * s * t + o from by ring]
        · congr 1
          · congr 1
            push_cast
            ring
          · apply naive_dft_congr
            intro t
            show (⟨s_windowed_sample raw wfn orgO orgN (2 * s * t + (o + s)), 0⟩ : ℂ) =
              ⟨s_windowed_sample raw wfn orgO orgN (s * (2 * t + 1) + o), 0⟩
            rw [show s * (2 * t + 1) + o = 2 * s * t + (o + s) from by ring]
    · intro j hj
      rw [hstep]
      rw [csf j (fun idx hidx =>
        ⟨hj idx (by omega), hj (idx + 2 ^ m) (by omega)⟩)]
      rw [ihOf j (fun k hk => by
        have hje := hj (2 * k + 1) (by omega)
        rwa [show s * (2 * k + 1) + o = 2 * s * k + (o + s) from by ring] at hje)]
      rw [ihEf j (fun k hk => by
        have hje := hj (2 * k) (by omega)
        rwa [show s * (2 * k) + o = 2 * s * k + o from by ring] at hje)]

/-- The values produced by s_fft_part on a power of two length: success,
and entry k is the naive DFT of the windowed samples of the processed
range. -/
theorem s_fft_part_values (raw : s_raw_audio) (o m : Nat) (wfn : Option (Int → Nat → ℝ)) :
    ∃ res : Nat → ℂ,
      s_fft_part raw o (2 ^ m) wfn = Except.ok ⟨2 ^ m, res⟩ ∧
      ∀ k, k < 2 ^ m → res k =
        naive_dft (fun j => ⟨s_windowed_sample raw wfn o (2 ^ m) (j + o), 0⟩) (2 ^ m) k :=
  by
  have hpow : s_is_pow_2 (2 ^ m) = true := (s_is_pow_2_iff _).mpr ⟨m, rfl⟩
  refine ⟨s_fft_r (fun _ => 0) o raw 1 o (2 ^ m) wfn o (2 ^ m), ?_, ?_⟩
  · unfold s_fft_part
    rw [if_pos hpow]
  · intro k hk
    obtain ⟨hv, _⟩ :=
      s_fft_r_spec raw wfn o (2 ^ m) m (fun _ => 0) o 1 o (by norm_num) (le_refl o)
    have hval := hv k hk
    rw [show (1 : Nat) * k + o - o = k from by omega] at hval
    rw [hval]
    apply naive_dft_congr
    intro j
    rw [show (1 : Nat) * j + o = j + o from by omega]

/-- Claim C1: on every power of two length l and raw input with at least l
samples, s_fft_part with no window function matches the naive quadratic DFT
of the mono downmixed samples, each complex component within absolute error
1 / 10000 (the embedding computes in exact real arithmetic, where the FFT
equals the naive DFT outright). -/
theorem C1_fft_matches_naive_dft (raw : s_raw_audio) (l : Nat)
    (hl : s_is_pow_2 l = true) (hlen : l ≤ raw.samples.length) :
    ∃ res : s_dft, s_fft_part raw 0 l none = Except.ok res ∧ res.length = l ∧
      ∀ k, k < l →
        |(res.dft k).re -
            (naive_dft (fun j => (((s_mono_sample (raw.sampleAt j) : ℤ) : ℝ) : ℂ)) l k).re| ≤
          1 / 10000 ∧
        |(res.dft k).im -
            (naive_dft (fun j => (((s_mono_sample (raw.sampleAt j) : ℤ) : ℝ) : ℂ)) l k).im| ≤
          1 / 10000 :=
  by
  obtain ⟨m, rfl⟩ := (s_is_pow_2_iff l).mp hl
  obtain ⟨res, hok, hvals⟩ := s_fft_part_values raw 0 m none
  refine ⟨⟨2 ^ m, res⟩, hok, rfl, ?_⟩
  intro k hk
  have hval := hvals k hk
  have hcong :
      naive_dft (fun j => (⟨s_windowed_sample raw none 0 (2 ^ m) (j + 0), 0⟩ : ℂ)) (2 ^ m) k =
        naive_dft (fun j => (((s_mono_sample (raw.sampleAt j) : ℤ) : ℝ) : ℂ)) (2 ^ m) k :=
    naive_dft_congr (fun j => rfl) _ _
  dsimp only
  rw [hval, hcong]
  constructor <;> (rw [sub_self]; norm_num)

/-- The naive DFT of a real valued sequence is conjugate symmetric:
frequency k is the conjugate of frequency (N - k) mod N. -/
theorem naive_dft_conj (g : Nat → ℝ) (N : Nat) (k : Nat) (hk : k < N) :
    naive_dft (fun j => ⟨g j, 0⟩) N k =
      (starRingEnd ℂ) (naive_dft (fun j => ⟨g j, 0⟩) N ((N - k) % N)) :=
  by
  have hN : 0 < N := by omega
  unfold naive_dft
  rw [map_sum]
  apply Finset.sum_congr rfl
  intro j hj
  rw [map_mul]
  have hgj : (starRingEnd ℂ) (⟨g j, 0⟩ : ℂ) = ⟨g j, 0⟩ := by
    apply Complex.ext
    · simp
    · simp
  rw [hgj]
  congr 1
  rw [← Complex.exp_conj]
  simp only [map_mul, map_div₀, Complex.conj_ofReal, Complex.conj_I]
  rw [Complex.exp_eq_exp_iff_exists_int]
  by_cases hk0 : k = 0
  · subst hk0
    refine ⟨0, ?_⟩
    rw [Nat.sub_zero, Nat.mod_self]
    push_cast
    ring
  · have hm : (N - k) % N = N - k := Nat.mod_eq_of_lt (by omega)
    rw [hm]
    have hNk : ((N - k : Nat) : ℝ) = (N : ℝ) - (k : ℝ) :=
      Nat.cast_sub (by omega)
    rw [hNk]
    have hNz : ((N : ℂ)) ≠ 0 := Nat.cast_ne_zero.mpr (by omega)
    refine ⟨-(j : ℤ), ?_⟩
    push_cast
    field_simp
    ring

/-- Claim C4: on every power of two length, the spectrum produced by the
FFT engine from (always real valued) audio input satisfies conjugate
symmetry: value k equals the conjugate of value (l - k) mod l, here exactly
(the embedding computes in exact real arithmetic). -/
theorem C4_conjugate_symmetry (raw : s_raw_audio) (o l : Nat)
    (wfn : Option (Int → Nat → ℝ)) (hl : s_is_pow_2 l = true) :
    ∃ res : s_dft, s_fft_part raw o l wfn = Except.ok res ∧
      ∀ k, k < l → res.dft k = (starRingEnd ℂ) (res.dft ((l - k) % l)) :=
  by
  obtain ⟨m, rfl⟩ := (s_is_pow_2_iff l).mp hl
  obtain ⟨res, hok, hvals⟩ := s_fft_part_values raw o m wfn
  refine ⟨⟨2 ^ m, res⟩, hok, ?_⟩
  intro k hk
  have hmlt : (2 ^ m - k) % 2 ^ m < 2 ^ m := Nat.mod_lt _ (by positivity)
  show res k = (starRingEnd ℂ) (res ((2 ^ m - k) % 2 ^ m))
  rw [hvals k hk, hvals _ hmlt]
  exact naive_dft_conj (fun j => s_windowed_sample raw wfn o (2 ^ m) (j + o)) (2 ^ m) k hk

/-- Claim C6: the Hann function computes
0.5 * (1 - cos (2 pi n / (N - 1))), and in a windowed FFT over the frame
starting at offset o with length l, the coefficient applied to the sample at
absolute position p = j + o is the Hann value at index p - o - the position
inside the original un-recursed window, independent of recursion depth - and
it multiplies only the real part of the sample (the imaginary part of every
windowed input value is zero). -/
theorem C6_hann_window_position (raw : s_raw_audio) (o l : Nat)
    (hl : s_is_pow_2 l = true) :
    (∀ (n : Int) (N : Nat), s_hann_function n N =
        0.5 * (1 - Real.cos (2 * Real.pi * (n : ℝ) / ((N : ℝ) - 1)))) ∧
    ∃ res : s_dft, s_fft_part raw o l (some s_hann_function) = Except.ok res ∧
      ∀ k, k < l → res.dft k =
        naive_dft (fun j =>
          ⟨((s_mono_sample (raw.sampleAt (j + o)) : ℤ) : ℝ) *
            s_hann_function (((j + o : Nat) : Int) - (o : Int)) l, 0⟩) l k :=
  by
  refine ⟨fun n N => rfl, ?_⟩
  obtain ⟨m, rfl⟩ := (s_is_pow_2_iff l).mp hl
  obtain ⟨res, hok, hvals⟩ := s_fft_part_values raw o m (some s_hann_function)
  refine ⟨⟨2 ^ m, res⟩, hok, ?_⟩
  intro k hk
  dsimp only
  rw [hvals k hk]
  exact naive_dft_congr (fun j => rfl) _ _

/-- Mapping a list through an Except valued function that succeeds
everywhere succeeds with the list of payloads. -/
theorem except_mapM_ok {α β : Type} (l : List α) (f : α → Except Int β) (g : α → β)
    (h : ∀ a ∈ l, f a = Except.ok (g a)) : l.mapM f = Except.ok (l.map g) := by
  induction l with
  | nil => rfl
  | cons a t ih =>
    rw [List.mapM_cons, h a (List.mem_cons_self a t), List.map_cons,
      ih (fun b hb => h b (List.mem_cons_of_mem a hb))]
    rfl

/-- Claim C5: s_stft rejects a window size that is not a power of two with
-EINVAL, and otherwise (for overlap o below w, where the C frame count
samples_length / (w - o) is meaningful) succeeds with exactly
samples_length / (w - o) frames, each a DFT result of length exactly w. -/
theorem C5_stft_shape (raw : s_raw_audio) (w o : Nat) :
    (s_is_pow_2 w = false → s_stft raw w o = Except.error (-EINVAL)) ∧
    (s_is_pow_2 w = true → o < w →
      ∃ st : s_stft_t, s_stft raw w o = Except.ok st ∧
        st.length = raw.samples.length / (w - o) ∧
        st.dfts.length = raw.samples.length / (w - o) ∧
        ∀ d ∈ st.dfts, d.length = w) :=
  by
  constructor
  · intro hw
    unfold s_stft
    rw [if_neg (by simp [hw])]
  · intro hw _how
    have hmap := except_mapM_ok (List.range (raw.samples.length / (w - o)))
      (fun i => s_fft_part raw (i * (w - o)) w (some s_hann_function))
      (fun i => ⟨w, s_fft_r (fun _ => 0) (i * (w - o)) raw 1 (i * (w - o)) w
        (some s_hann_function) (i * (w - o)) w⟩)
      (fun i _ => by
        show s_fft_part raw (i * (w - o)) w (some s_hann_function) =
          Except.ok ⟨w, s_fft_r (fun _ => 0) (i * (w - o)) raw 1 (i * (w - o)) w
            (some s_hann_function) (i * (w - o)) w⟩
        unfold s_fft_part
        rw [if_pos hw])
    refine ⟨⟨raw.samples.length, raw.stat, w,
      raw.samples.length / (w - o),
      (List.range (raw.samples.length / (w - o))).map
        (fun i => ⟨w, s_fft_r (fun _ => 0) (i * (w - o)) raw 1 (i * (w - o)) w
          (some s_hann_function) (i * (w - o)) w⟩)⟩, ?_, rfl, ?_, ?_⟩
    · unfold s_stft
      rw [if_pos hw]
      dsimp only
      rw [hmap]
      rfl
    · rw [List.length_map, List.length_range]
    · intro d hd
      rw [List.mem_map] at hd
      obtain ⟨i, _, rfl⟩ := hd
      rfl

/-- The positions read by the FFT recursion on a power of two length are
exactly the strided range: every read index has the form s * k + o with k
below the length. -/
theorem s_fft_r_reads_spec :
    ∀ m s o, ∀ p ∈ s_fft_r_reads s o (2 ^ m), ∃ k, k < 2 ^ m ∧ p = s * k + o :=
  by
  intro m
  induction m with
  | zero =>
    intro s o p hp
    rw [pow_zero, s_fft_r_reads, dif_pos rfl, List.mem_singleton] at hp
    exact ⟨0, by omega, by rw [hp, Nat.mul_zero, Nat.zero_add]⟩
  | succ m ih =>
    intro s o p hp
    have h2m : (1 : Nat) ≤ 2 ^ m := Nat.one_le_two_pow
    have hb : (2 : Nat) ^ (m + 1) = 2 * 2 ^ m := by ring
    have hbdiv : (2 : Nat) ^ (m + 1) / 2 = 2 ^ m := by
      rw [hb]; exact Nat.mul_div_cancel_left _ (by norm_num)
    rw [s_fft_r_reads, dif_neg (by omega), dif_neg (by omega), hbdiv,
      List.mem_append] at hp
    rcases hp with hp | hp
    · obtain ⟨k, hk, hpk⟩ := ih (2 * s) o p hp
      exact ⟨2 * k, by omega, by
        rw [hpk, show s * (2 * k) = 2 * s * k from by ring]⟩
    · obtain ⟨k, hk, hpk⟩ := ih (2 * s) (o + s) p hp
      exact ⟨2 * k + 1, by omega, by
        rw [hpk, show s * (2 * k + 1) + o = 2 * s * k + (o + s) from by ring]⟩

/-- Claim C10: computing the STFT with overlap 0 stays in bounds: for every
frame index i of s_stft (there are samples_length / (w - 0) of them, each
processed by the FFT recursion from offset i * (w - 0) with stride 1 and
length w), every raw sample index read by the recursion is strictly below
samples_length, so the out of range branch of the sample lookup is never
taken. -/
theorem C10_stft_reads_in_bounds (raw : s_raw_audio) (w : Nat)
    (hw : s_is_pow_2 w = true) :
    ∀ i, i < raw.samples.length / (w - 0) →
      ∀ p ∈ s_fft_r_reads 1 (i * (w - 0)) w, p < raw.samples.length :=
  by
  obtain ⟨m, rfl⟩ := (s_is_pow_2_iff w).mp hw
  intro i hi p hp
  rw [Nat.sub_zero] at hi hp
  obtain ⟨k, hk, hpk⟩ := s_fft_r_reads_spec m 1 (i * 2 ^ m) p hp
  have hp2 : p < i * 2 ^ m + 2 ^ m := by
    rw [hpk, one_mul]
    omega
  have h3 : (i + 1) * 2 ^ m = i * 2 ^ m + 2 ^ m := by ring
  have h4 : i * 2 ^ m + 2 ^ m ≤ (raw.samples.length / 2 ^ m) * 2 ^ m := by
    rw [← h3]
    exact Nat.mul_le_mul_right _ (by omega)
  have h2 : (raw.samples.length / 2 ^ m) * 2 ^ m ≤ raw.samples.length :=
    Nat.div_mul_le_self _ _
  omega

/-- Witness for C1: length 2 over a two sample input. -/
theorem C1_fft_matches_naive_dft_witness :
    s_is_pow_2 2 = true ∧
    2 ≤ (⟨⟨s_ftype.FTYPE_MP3, 16, 44100⟩, [⟨1, 2⟩, ⟨3, 4⟩]⟩ : s_raw_audio).samples.length ∧
    (∃ res : s_dft,
      s_fft_part (⟨⟨s_ftype.FTYPE_MP3, 16, 44100⟩, [⟨1, 2⟩, ⟨3, 4⟩]⟩ : s_raw_audio) 0 2 none =
        Except.ok res ∧ res.length = 2 ∧
      ∀ k, k < 2 →
        |(res.dft k).re -
            (naive_dft (fun j => (((s_mono_sample
              ((⟨⟨s_ftype.FTYPE_MP3, 16, 44100⟩, [⟨1, 2⟩, ⟨3, 4⟩]⟩ : s_raw_audio).sampleAt j) :
                ℤ) : ℝ) : ℂ)) 2 k).re| ≤ 1 / 10000 ∧
        |(res.dft k).im -
            (naive_dft (fun j => (((s_mono_sample
              ((⟨⟨s_ftype.FTYPE_MP3, 16, 44100⟩, [⟨1, 2⟩, ⟨3, 4⟩]⟩ : s_raw_audio).sampleAt j) :
                ℤ) : ℝ) : ℂ)) 2 k).im| ≤ 1 / 10000) :=
  ⟨by decide, by decide,
    C1_fft_matches_naive_dft ⟨⟨s_ftype.FTYPE_MP3, 16, 44100⟩, [⟨1, 2⟩, ⟨3, 4⟩]⟩ 2
      (by decide) (by decide)⟩

/-- Witness for C4: length 4 at offset 1 with the Hann window. -/
theorem C4_conjugate_symmetry_witness :
    s_is_pow_2 4 = true ∧
    (∃ res : s_dft,
      s_fft_part (⟨⟨s_ftype.FTYPE_MP3, 16, 44100⟩, [⟨1, 2⟩, ⟨3, 4⟩]⟩ : s_raw_audio) 1 4
          (some s_hann_function) = Except.ok res ∧
      ∀ k, k < 4 → res.dft k = (starRingEnd ℂ) (res.dft ((4 - k) % 4))) :=
  ⟨by decide,
    C4_conjugate_symmetry ⟨⟨s_ftype.FTYPE_MP3, 16, 44100⟩, [⟨1, 2⟩, ⟨3, 4⟩]⟩ 1 4
      (some s_hann_function) (by decide)⟩

/-- Witness for C5: window size 2, overlap 0, four samples. -/
theorem C5_stft_shape_witness :
    s_is_pow_2 2 = true ∧ (0 : Nat) < 2 ∧
    (∃ st : s_stft_t,
      s_stft (⟨⟨s_ftype.FTYPE_MP3, 16, 44100⟩,
          [⟨1, 2⟩, ⟨3, 4⟩, ⟨5, 6⟩, ⟨7, 8⟩]⟩ : s_raw_audio) 2 0 = Except.ok st ∧
      st.length = (⟨⟨s_ftype.FTYPE_MP3, 16, 44100⟩,
          [⟨1, 2⟩, ⟨3, 4⟩, ⟨5, 6⟩, ⟨7, 8⟩]⟩ : s_raw_audio).samples.length / (2 - 0) ∧
      st.dfts.length = (⟨⟨s_ftype.FTYPE_MP3, 16, 44100⟩,
          [⟨1, 2⟩, ⟨3, 4⟩, ⟨5, 6⟩, ⟨7, 8⟩]⟩ : s_raw_audio).samples.length / (2 - 0) ∧
      ∀ d ∈ st.dfts, d.length = 2) :=
  ⟨by decide, by decide,
    (C5_stft_shape ⟨⟨s_ftype.FTYPE_MP3, 16, 44100⟩,
        [⟨1, 2⟩, ⟨3, 4⟩, ⟨5, 6⟩, ⟨7, 8⟩]⟩ 2 0).2 (by decide) (by decide)⟩

/-- Witness for C6: a windowed frame of length 2 at offset 1. -/
theorem C6_hann_window_position_witness :
    s_is_pow_2 2 = true ∧
    ((∀ (n : Int) (N : Nat), s_hann_function n N =
        0.5 * (1 - Real.cos (2 * Real.pi * (n : ℝ) / ((N : ℝ) - 1)))) ∧
    ∃ res : s_dft,
      s_fft_part (⟨⟨s_ftype.FTYPE_MP3, 16, 44100⟩, [⟨1, 2⟩, ⟨3, 4⟩, ⟨5, 6⟩]⟩ : s_raw_audio) 1 2
          (some s_hann_function) = Except.ok res ∧
      ∀ k, k < 2 → res.dft k =
        naive_dft (fun j =>
          ⟨((s_mono_sample ((⟨⟨s_ftype.FTYPE_MP3, 16, 44100⟩,
              [⟨1, 2⟩, ⟨3, 4⟩, ⟨5, 6⟩]⟩ : s_raw_audio).sampleAt (j + 1)) : ℤ) : ℝ) *
            s_hann_function (((j + 1 : Nat) : Int) - ((1 : Nat) : Int)) 2, 0⟩) 2 k) :=
  ⟨by decide,
    C6_hann_window_position ⟨⟨s_ftype.FTYPE_MP3, 16, 44100⟩, [⟨1, 2⟩, ⟨3, 4⟩, ⟨5, 6⟩]⟩ 1 2
      (by decide)⟩

/-- Witness for C7: a 12 byte file with a sync pattern at offset 10. -/
theorem C7_locate_frame_sync_witness :
    10 ≤ ([0, 0, 0, 0, 0, 0, 0, 0, 0, 0, 0xFF, 0xFB] : List Nat).length ∧
    (((∃ i, s_is_mp3_frame_header [0, 0, 0, 0, 0, 0, 0, 0, 0, 0, 0xFF, 0xFB] i = true) →
      ∃ off, s_get_mp3_frame_header_offset [0, 0, 0, 0, 0, 0, 0, 0, 0, 0, 0xFF, 0xFB] =
          Except.ok off ∧
        s_is_mp3_frame_header [0, 0, 0, 0, 0, 0, 0, 0, 0, 0, 0xFF, 0xFB] off = true) ∧
    ((¬ ∃ i, s_is_mp3_frame_header [0, 0, 0, 0, 0, 0, 0, 0, 0, 0, 0xFF, 0xFB] i = true) →
      s_get_mp3_frame_header_offset [0, 0, 0, 0, 0, 0, 0, 0, 0, 0, 0xFF, 0xFB] =
        Except.error (-EINVAL))) :=
  ⟨by decide, C7_locate_frame_sync [0, 0, 0, 0, 0, 0, 0, 0, 0, 0, 0xFF, 0xFB] (by decide)⟩

/-- Witness for C10: window size 2 over four samples. -/
theorem C10_stft_reads_in_bounds_witness :
    s_is_pow_2 2 = true ∧
    (∀ i, i < (⟨⟨s_ftype.FTYPE_MP3, 16, 44100⟩,
        [⟨1, 2⟩, ⟨3, 4⟩, ⟨5, 6⟩, ⟨7, 8⟩]⟩ : s_raw_audio).samples.length / (2 - 0) →
      ∀ p ∈ s_fft_r_reads 1 (i * (2 - 0)) 2,
        p < (⟨⟨s_ftype.FTYPE_MP3, 16, 44100⟩,
          [⟨1, 2⟩, ⟨3, 4⟩, ⟨5, 6⟩, ⟨7, 8⟩]⟩ : s_raw_audio).samples.length) :=
  ⟨by decide,
    C10_stft_reads_in_bounds ⟨⟨s_ftype.FTYPE_MP3, 16, 44100⟩,
      [⟨1, 2⟩, ⟨3, 4⟩, ⟨5, 6⟩, ⟨7, 8⟩]⟩ 2 (by decide)⟩

end Spectr
